import Mathlib

/-!
Verification of the docker-reuse fingerprint engine.

This development embeds the core of the `docker-reuse` tool
(`fingerprint.go`, `sources.go`, and the current `main.go` revision)
as executable Lean definitions and proves the specified properties
about them.

Modelling conventions:
* Go byte slices and strings are modelled as `String` (or `List Char`
  for the byte-level routines of the template updater).
* The SHA-1 digest (an external library primitive) is modelled by
  `sha1Hex`, an injective encoding of the hashed byte stream; every
  theorem below only depends on the fact that equal input streams
  produce equal digests, which holds for the real function as well.
* A `hash.Hash` accumulator is modelled as the string of bytes written
  so far (`Hasher`), with `hWrite` modelling `Hash.Write`.
* External collaborators (`path/filepath` functions, `os.Stat`,
  `filepath.Glob`, the buildkit Dockerfile parser) are abstracted as
  components of an `FSEnv` record; the theorems hold for every
  behaviour of these collaborators.
* Go slices distinguish `nil` from a non-nil empty slice; `GoSlice`
  records that distinction (`isNil` is true exactly when the Go value
  is the nil slice).
-/

namespace DockerReuse

/-- Model of a Go `hash.Hash` accumulator: the byte stream written so
far (fingerprint.go, `sha1.New()` / `Hash.Write`). -/
abbrev Hasher : Type := String

/-- The empty hasher, `sha1.New()`. -/
def hInit : Hasher := ""

/-- `Hash.Write`: append the given bytes to the accumulated stream. -/
def hWrite (h : Hasher) (s : String) : Hasher :=
  String.append h s

/-- Model of the SHA-1 hex digest of a byte stream.  The digest is
modelled as an injective encoding of the stream itself; the
development relies only on equal streams having equal digests. -/
def sha1Hex (msg : String) : String := msg

/-- fingerprint.go: `type fingerprintMode string`. -/
abbrev fingerprintMode : Type := String

/-- fingerprint.go: `modeCommit` — git commit hashes. -/
def modeCommit : fingerprintMode := "commit"

/-- fingerprint.go: `modeSHA1` — file content hashing. -/
def modeSHA1 : fingerprintMode := "sha1"

/-- fingerprint.go: `modeAuto` — commit hash with content fallback. -/
def modeAuto : fingerprintMode := "auto"

/-- fingerprint.go: `type fingerprint struct { mode; hash }`. -/
structure fingerprint where
  mode : fingerprintMode
  hash : String
deriving DecidableEq

/-- fingerprint.go: `fingerprint.String()`, i.e. `"<mode>:<hash>"`. -/
def fingerprint.render (fp : fingerprint) : String :=
  fp.mode ++ ":" ++ fp.hash

/-- fingerprint.go: `fingerprintFromSHA1` builds a `sha1`-mode
fingerprint from the accumulated hash state. -/
def fingerprintFromSHA1 (h : Hasher) : fingerprint :=
  ⟨modeSHA1, sha1Hex h⟩

/-- A Go slice value: `isNil` is true exactly when the slice is the Go
`nil` slice (a zero-value `var s []T` that was never appended to). -/
structure GoSlice (α : Type) where
  isNil : Bool
  elems : List α
deriving DecidableEq

/-- The Go zero value `var s []T`: the nil slice. -/
def goNilSlice {α : Type} : GoSlice α := ⟨true, []⟩

/-- Go `append(s, x)`: the result is never nil. -/
def goAppend {α : Type} (s : GoSlice α) (x : α) : GoSlice α :=
  ⟨false, s.elems ++ [x]⟩

/-- Model of Go `strings.HasPrefix` (executable by structural
recursion over the character lists). -/
def goHasPrefix (s pre : String) : Bool :=
  pre.data.isPrefixOf s.data

/-- One parsed Dockerfile instruction as produced by the buildkit
parser (`parser.Node`): the verb (`child.Value`), the flag list
(`child.Flags`) and the argument chain (`child.Next` linked list),
flattened into a list of tokens. -/
structure Instruction where
  value : String
  flags : List String
  args : List String
deriving DecidableEq

/-- sources.go, inner loop of `collectSourcesFromDockerfile`: walk the
argument chain, collecting every token that has a successor (i.e. all
tokens except the last, which is the destination), skipping tokens
already collected.  The `alreadyAdded` map always holds exactly the
appended values, so membership in `acc.elems` models it. -/
def addSources (acc : GoSlice String) : List String → GoSlice String
  | [] => acc
  | [_] => acc
  | s :: t :: rest =>
    addSources (if acc.elems.contains s then acc else goAppend acc s)
      (t :: rest)

/-- sources.go, `collectSourcesFromDockerfile` body: only `add`/`copy`
instructions participate; an instruction with a flag carrying the
`--from` prefix is skipped entirely; otherwise its argument chain is
collected by `addSources`. -/
def collectChild (acc : GoSlice String) (child : Instruction) :
    GoSlice String :=
  if child.value ≠ "add" ∧ child.value ≠ "copy" then acc
  else if child.flags.any (fun flag => goHasPrefix flag "--from") then acc
  else addSources acc child.args

/-- sources.go: `collectSourcesFromDockerfile` over the parsed AST
children (the parse step itself, `parser.Parse`, is the external
buildkit parser; its failure is the only error path of the Go
function and precedes this fold). -/
def collectSourcesFromDockerfile (children : List Instruction) :
    GoSlice String :=
  children.foldl collectChild goNilSlice

/-- Result of `os.Stat` as consumed by `computeImageFingerprint`:
success, a not-exist error (recognised by `os.IsNotExist`), or any
other error.  The payload is the error value that Go would propagate. -/
inductive statResult where
  | statOk
  | statErrNotExist (msg : String)
  | statErrOther (msg : String)
deriving DecidableEq

/-- Abstraction of the external collaborators used by
`computeImageFingerprint` (fingerprint.go): the `path/filepath`
functions, `os.Stat`, `filepath.Glob`, and the combination of
`os.Open` + buildkit `parser.Parse` + re-reading the recipe bytes
performed by `parseAndHashDockerfile`.  `readDockerfile` returns the
parsed AST children together with the raw recipe bytes, or the
open/parse error. -/
structure FSEnv where
  clean : String → String
  join : String → String → String
  rel : String → String → String
  stat : String → statResult
  glob : String → List String
  readDockerfile : String → Except String (List Instruction × String)

/-- The type of per-path resolution strategies
(fingerprint.go, `type fingerprintFunc`). -/
abbrev fingerprintFunc : Type := String → Except String fingerprint

/-- fingerprint.go: `parseAndHashDockerfile` — parse the recipe,
collect its sources, and digest the raw recipe bytes with SHA-1. -/
def parseAndHashDockerfile (env : FSEnv) (dockerfile : String) :
    Except String (GoSlice String × fingerprint) :=
  match env.readDockerfile dockerfile with
  | .error e => .error e
  | .ok (children, raw) =>
    .ok (collectSourcesFromDockerfile children,
      fingerprintFromSHA1 (hWrite hInit raw))

/-- The canonical byte encoding of one resolved source, as written by
`addSourceFingerprint` in fingerprint.go: `source + "@" + fp.String()
+ "\n"`. -/
def sourceLine (source : String) (fp : fingerprint) : String :=
  source ++ "@" ++ fp.render ++ "\n"

/-- fingerprint.go, inner glob loop of `computeImageFingerprint`: each
glob match is resolved individually, its source name recomputed via
`filepath.Rel(workingDir, pathname)`, and its line written into the
running hash; a resolution failure aborts. -/
def processMatches (env : FSEnv) (workingDir : String)
    (computeFingerprint : fingerprintFunc) :
    List String → Hasher → Except String Hasher
  | [], h => .ok h
  | pathname :: rest, h =>
    match computeFingerprint pathname with
    | .error e => .error e
    | .ok fp =>
      processMatches env workingDir computeFingerprint rest
        (hWrite h (sourceLine (env.rel workingDir pathname) fp))

/-- fingerprint.go, main source loop of `computeImageFingerprint`:
clean and join each extracted source, `Stat` it; on success resolve it
directly; on a not-exist error try `Glob`, returning the original
`Stat` error when nothing matches and otherwise resolving every match;
abort on any other `Stat` error or any resolution error. -/
def processSources (env : FSEnv) (workingDir : String)
    (computeFingerprint : fingerprintFunc) :
    List String → Hasher → Except String Hasher
  | [], h => .ok h
  | s :: rest, h =>
    let source := env.clean s
    let pathname := env.join workingDir source
    match env.stat pathname with
    | .statOk =>
      match computeFingerprint pathname with
      | .error e => .error e
      | .ok fp =>
        processSources env workingDir computeFingerprint rest
          (hWrite h (sourceLine source fp))
    | .statErrOther msg => .error msg
    | .statErrNotExist msg =>
      match env.glob pathname with
      | [] => .error msg
      | m :: ms =>
        match processMatches env workingDir computeFingerprint
            (m :: ms) h with
        | .error e => .error e
        | .ok h2 => processSources env workingDir computeFingerprint rest h2

/-- fingerprint.go, final loop of `computeImageFingerprint`: each build
argument is written into the hash followed by a newline. -/
def writeArgs (h : Hasher) (buildArgs : List String) : Hasher :=
  buildArgs.foldl (fun h1 arg => hWrite (hWrite h1 arg) "\n") h

/-- fingerprint.go: `computeImageFingerprint` — clean the working
directory, default the Dockerfile path, parse and digest the recipe,
write the recipe line, the resolved source lines and the build
argument lines into one hash, and return its digest. -/
def computeImageFingerprint (env : FSEnv)
    (workingDir dockerfile : String) (buildArgs : List String)
    (computeFingerprint : fingerprintFunc) :
    Except String fingerprint :=
  let wd := env.clean workingDir
  let df := if dockerfile = "" then env.join wd "Dockerfile" else dockerfile
  match parseAndHashDockerfile env df with
  | .error e => .error e
  | .ok (sources, dockerfileFingerprint) =>
    let h := hWrite hInit (sourceLine "Dockerfile" dockerfileFingerprint)
    match processSources env wd computeFingerprint sources.elems h with
    | .error e => .error e
    | .ok h2 => .ok (fingerprintFromSHA1 (writeArgs h2 buildArgs))

/-- The list of resolved sources, in discovery order, that a
successful aggregation contributes to the digest: the same traversal
as `processSources` but collecting `(name, fingerprint)` pairs instead
of threading the hash state (the spec's notion of "each resolved
source in discovery order"). -/
def resolveMatches (env : FSEnv) (workingDir : String)
    (computeFingerprint : fingerprintFunc) :
    List String → Except String (List (String × fingerprint))
  | [] => .ok []
  | pathname :: rest =>
    match computeFingerprint pathname with
    | .error e => .error e
    | .ok fp =>
      match resolveMatches env workingDir computeFingerprint rest with
      | .error e => .error e
      | .ok l => .ok ((env.rel workingDir pathname, fp) :: l)

/-- Companion of `resolveMatches` for the outer source loop: the
resolved `(name, fingerprint)` pairs of a source list, in discovery
order, with the same stat/glob/error behaviour as `processSources`. -/
def resolveSources (env : FSEnv) (workingDir : String)
    (computeFingerprint : fingerprintFunc) :
    List String → Except String (List (String × fingerprint))
  | [] => .ok []
  | s :: rest =>
    let source := env.clean s
    let pathname := env.join workingDir source
    match env.stat pathname with
    | .statOk =>
      match computeFingerprint pathname with
      | .error e => .error e
      | .ok fp =>
        match resolveSources env workingDir computeFingerprint rest with
        | .error e => .error e
        | .ok l => .ok ((source, fp) :: l)
    | .statErrOther msg => .error msg
    | .statErrNotExist msg =>
      match env.glob pathname with
      | [] => .error msg
      | m :: ms =>
        match resolveMatches env workingDir computeFingerprint
            (m :: ms) with
        | .error e => .error e
        | .ok l1 =>
          match resolveSources env workingDir computeFingerprint rest with
          | .error e => .error e
          | .ok l2 => .ok (l1 ++ l2)

/-- Concatenation of a list of strings (used to state digest streams). -/
def joinAll : List String → String
  | [] => ""
  | s :: rest => s ++ joinAll rest

/-- The warning printed to stderr by the `modeAuto` closure in
main.go when the git strategy fails. -/
def autoWarning (pathname err : String) : String :=
  "Warning: unable to use git commit hash for '" ++ pathname ++
    "' - falling back to file content hashing: " ++ err

/-- main.go, `modeAuto` case of the fingerprinting-mode switch: try
`getLastCommitHash`; on success return its fingerprint; on failure
print a warning to stderr and return the result of `hashFiles`.  The
two strategies are parameters (`getLastCommitHash` shells out to git
and `hashFiles` walks the filesystem); the second component of the
result collects the stderr warnings emitted. -/
def autoFingerprint (gitHash contentHash : fingerprintFunc)
    (pathname : String) : Except String fingerprint × List String :=
  match gitHash pathname with
  | .ok fp => (.ok fp, [])
  | .error e => (contentHash pathname, [autoWarning pathname e])

/-- main.go, build-argument environment loop: an argument without `=`
must be found in the environment (`os.LookupEnv`); a missing variable
is a hard error (`fmtErrorExit`); a found value `v` turns the argument
into `NAME=v` (even when `v` is empty). -/
def resolveBuildArgs (osEnv : String → Option String) :
    List String → Except String (List String)
  | [] => .ok []
  | arg :: rest =>
    if arg.data.contains '=' then
      match resolveBuildArgs osEnv rest with
      | .error e => .error e
      | .ok l => .ok (arg :: l)
    else
      match osEnv arg with
      | none =>
        .error ("environment variable " ++ arg ++ " is not set")
      | some v =>
        match resolveBuildArgs osEnv rest with
        | .error e => .error e
        | .ok l => .ok ((arg ++ "=" ++ v) :: l)

/-- main.go control flow up to the fingerprint computation: the
build-argument environment loop runs first, and only then does
`findOrBuildAndPushImage` call `computeImageFingerprint` (the first
step that hashes any source). -/
def mainFingerprintRun (osEnv : String → Option String) (env : FSEnv)
    (computeFingerprint : fingerprintFunc)
    (workingDir dockerfile : String) (buildArgs : List String) :
    Except String fingerprint :=
  match resolveBuildArgs osEnv buildArgs with
  | .error e => .error e
  | .ok resolved =>
    computeImageFingerprint env workingDir dockerfile resolved
      computeFingerprint

/-- A character allowed in an image tag by the template regex in
main.go, character class `[-.\w]` (RE2 `\w` is `[0-9A-Za-z_]`). -/
def isTagChar (c : Char) : Bool :=
  c.isAlpha || c.isDigit || c = '_' || c = '.' || c = '-'

/-- Maximal leading run of tag characters (the greedy `[-.\w]+`). -/
def tagRun : List Char → List Char
  | [] => []
  | c :: rest => if isTagChar c then c :: tagRun rest else []

/-- One match attempt of the template pattern
`regexp.QuoteMeta(imageName) + "(?::[-.\w]+)?"` at the start of `s`:
the literal image name, optionally extended by a colon and a maximal
nonempty run of tag characters. -/
def matchImageRef (imageName s : List Char) : Option (List Char) :=
  if imageName.isPrefixOf s then
    match s.drop imageName.length with
    | ':' :: r2 =>
      match tagRun r2 with
      | [] => some imageName
      | run => some (imageName ++ ':' :: run)
    | _ => some imageName
  else none

/-- Model of `regexp.FindAll` (`Regexp.allMatches` in Go) for the
template pattern: scan left to right, taking the leftmost match at
each step.  After a nonempty match the scan resumes at its end
(`skip` counts the remaining characters of the current match, and
`atPrevEnd` records that the new position is exactly the previous
match's end).  A match of length zero (possible only for an empty
image name) is recorded — unless it sits exactly at the previous
match's end, which Go skips — and the scan advances one character
past it; the position one past the last character is also probed, as
Go's loop runs while `pos <= end`. -/
def findRefsAux (imageName : List Char) :
    List Char → Nat → Bool → List (List Char)
  | [], Nat.succ _, _ => []
  | [], 0, atPrevEnd =>
    match matchImageRef imageName [] with
    | none => []
    | some m => if m.length = 0 && atPrevEnd then [] else [m]
  | _ :: rest, Nat.succ k, _ =>
    findRefsAux imageName rest k (decide (k = 0))
  | c :: rest, 0, atPrevEnd =>
    match matchImageRef imageName (c :: rest) with
    | none => findRefsAux imageName rest 0 false
    | some m =>
      if m.length = 0 then
        if atPrevEnd then findRefsAux imageName rest 0 false
        else m :: findRefsAux imageName rest 0 false
      else
        m :: findRefsAux imageName rest (m.length - 1)
          (decide (m.length - 1 = 0))

/-- main.go (`readTemplateFile`): all matches of the image-reference
pattern inside the template contents, left to right (initially the
scan is at position zero, inside no previous match, and the previous
match end is `-1`, distinct from every position). -/
def findImageRefs (imageName contents : String) : List String :=
  (findRefsAux imageName.data contents.data 0 false).map List.asString

/-- Model of `bytes.Contains`: `pat` occurs as a contiguous substring
of `hay` (true for the empty pattern, as in Go). -/
def containsSub (hay pat : List Char) : Bool :=
  match hay with
  | [] => pat.isPrefixOf []
  | c :: rest => pat.isPrefixOf (c :: rest) || containsSub rest pat

/-- main.go: `type templateFile struct { filename; contents;
placeholder }`. -/
structure templateFile where
  filename : String
  contents : String
  placeholder : String
deriving DecidableEq

/-- main.go: `readTemplateFile` after a successful `os.ReadFile`
(`contents` is the file's byte content).  With an explicit placeholder
the contents must contain it verbatim; otherwise every match of the
image-reference pattern must equal the first one, which becomes the
placeholder. -/
def readTemplateFile (filename imageName placeholderString contents :
    String) : Except String templateFile :=
  if placeholderString = "" then
    match findImageRefs imageName contents with
    | [] =>
      .error ("'" ++ filename ++ "' does not contain the image name '" ++
        imageName ++ "'")
    | r :: rest =>
      if rest.all (fun x => x = r) then .ok ⟨filename, contents, r⟩
      else
        .error ("'" ++ filename ++ "' contains different tags for '" ++
          imageName ++ "'")
  else
    if containsSub contents.data placeholderString.data then
      .ok ⟨filename, contents, placeholderString⟩
    else
      .error ("'" ++ filename ++ "' does not contain occurrences of '" ++
        placeholderString ++ "'")

/-- Go `bytes.ReplaceAll` for a nonempty pattern: scan left to right,
replacing each leftmost occurrence of `old` and resuming after it. -/
def replaceCore (old new : List Char) : List Char → List Char
  | [] => []
  | c :: rest =>
    if old.isPrefixOf (c :: rest) then
      new ++ replaceCore old new (rest.drop (old.length - 1))
    else
      c :: replaceCore old new rest
termination_by l => l.length
decreasing_by
  · simp only [List.length_drop, List.length_cons]
    omega
  · simp only [List.length_cons]
    omega

/-- Go `bytes.ReplaceAll`, including the empty-pattern case (`new` is
inserted before every character and at the end). -/
def replaceAll (s old new : List Char) : List Char :=
  if old = [] then new ++ s.flatMap (fun c => c :: new)
  else replaceCore old new s

/-- main.go, template update loop at the end of `main`: if the
placeholder already equals the fingerprinted image name the file is
skipped (no write, `changed = false`); otherwise every occurrence of
the placeholder is replaced via `bytes.ReplaceAll` and the file is
rewritten (`changed = true`). -/
def applyTag (contents placeholder finalName : List Char) :
    List Char × Bool :=
  if placeholder = finalName then (contents, false)
  else (replaceAll contents placeholder finalName, true)

mutual

/-- A filesystem subtree as visited by `filepath.Walk` in `hashFiles`
(fingerprint.go): a regular file with its byte content, or a directory
with its entries listed in walk order (`filepath.Walk` visits entries
sorted by name; the entry list here is that sorted listing). -/
inductive FSTree where
  | file (content : String)
  | dir (entries : FSEntries)

/-- The named entries of a directory, in walk order. -/
inductive FSEntries where
  | nil
  | cons (name : String) (tree : FSTree) (rest : FSEntries)

end

/-- Whether a base name marks a hidden entry:
`filepath.Base(p)[0] == '.'` in `hashFiles`. -/
def isHiddenName (name : String) : Bool :=
  match name.data with
  | [] => false
  | c :: _ => c = '.'

mutual

/-- fingerprint.go, the walk function of `hashFiles` applied to a
subtree reached under entry name `name`: a directory whose base name
is hidden is skipped (`filepath.SkipDir`), hashing nothing; any other
directory walks its entries in order; a regular file streams its bytes
into the running hash (`io.Copy(h, f)`).  File names are never
written into the hash. -/
def walkTree (t : FSTree) (name : String) (h : Hasher) : Hasher :=
  match t with
  | .file content => hWrite h content
  | .dir entries =>
    if isHiddenName name then h else walkEntries entries h

/-- Walk a directory's entries in order, threading the hash state. -/
def walkEntries (entries : FSEntries) (h : Hasher) : Hasher :=
  match entries with
  | .nil => h
  | .cons name tree rest => walkEntries rest (walkTree tree name h)

end

/-- Split a character list on `/` separators. -/
def splitSlash : List Char → List (List Char)
  | [] => [[]]
  | c :: rest =>
    if c = '/' then [] :: splitSlash rest
    else
      match splitSlash rest with
      | [] => [[c]]
      | g :: gs => (c :: g) :: gs

/-- Model of Unix `filepath.Base` for slash-separated paths: the last
nonempty component; `"."` for an empty path, the path itself when it
has no nonempty component. -/
def goBase (pathname : String) : String :=
  match (splitSlash pathname.data).filter (fun c => c ≠ []) with
  | [] => if pathname = "" then "." else pathname
  | comps => (comps.getLastD []).asString

/-- Whether the root of the walk is itself skipped: `hashFiles` skips
the root directory when `p != "."` and its base name is hidden. -/
def rootHidden (pathname : String) : Bool :=
  pathname ≠ "." && isHiddenName (goBase pathname)

/-- fingerprint.go: `hashFiles` — walk the given pathname (a file or a
directory tree), streaming every regular file's bytes into one SHA-1
hash, skipping hidden directories, and return the digest as a
`sha1`-mode fingerprint. -/
def hashFiles (pathname : String) (t : FSTree) : fingerprint :=
  let h :=
    match t with
    | .file content => hWrite hInit content
    | .dir entries =>
      if rootHidden pathname then hInit else walkEntries entries hInit
  fingerprintFromSHA1 h

/-- The non-destination argument tokens an instruction contributes:
empty unless the verb is `add`/`copy` and no flag has the `--from`
prefix; otherwise all argument tokens except the last. -/
def sourceTokens (child : Instruction) : List String :=
  if child.value ≠ "add" ∧ child.value ≠ "copy" then []
  else if child.flags.any (fun flag => goHasPrefix flag "--from") then []
  else child.args.dropLast

/-- Whether an instruction qualifies as a source-contributing copy:
verb `add`/`copy` and no `--from`-prefixed flag. -/
def qualifiesChild (child : Instruction) : Bool :=
  (child.value = "add" || child.value = "copy") &&
    !(child.flags.any (fun flag => goHasPrefix flag "--from"))

/-- First-seen deduplicating accumulation of tokens. -/
def addTokens (acc : List String) (ts : List String) : List String :=
  ts.foldl (fun a s => if a.contains s then a else a ++ [s]) acc

/-- De-duplication keeping the first occurrence of each token. -/
def dedupFirstSeen (l : List String) : List String :=
  addTokens [] l

theorem addTokens_append (acc : List String) (xs ys : List String) :
    addTokens acc (xs ++ ys) = addTokens (addTokens acc xs) ys := by
  simp [addTokens, List.foldl_append]

theorem addSources_elems (args : List String) :
    ∀ acc : GoSlice String,
      (addSources acc args).elems = addTokens acc.elems args.dropLast := by
  induction args with
  | nil => intro acc; simp [addSources, addTokens]
  | cons s args' ih =>
    intro acc
    cases args' with
    | nil => simp [addSources, addTokens]
    | cons t rest =>
      rw [show addSources acc (s :: t :: rest) =
            addSources
              (if acc.elems.contains s then acc else goAppend acc s)
              (t :: rest) from rfl,
        ih]
      have helems :
          (if acc.elems.contains s then acc else goAppend acc s).elems =
            if acc.elems.contains s then acc.elems
            else acc.elems ++ [s] := by
        by_cases hc : s ∈ acc.elems <;> simp [hc, goAppend]
      rw [helems]
      simp [addTokens]

theorem collectChild_elems (acc : GoSlice String) (child : Instruction) :
    (collectChild acc child).elems =
      addTokens acc.elems (sourceTokens child) := by
  unfold collectChild sourceTokens
  by_cases h1 : child.value ≠ "add" ∧ child.value ≠ "copy"
  · simp [h1, addTokens]
  · by_cases h2 : child.flags.any (fun flag => goHasPrefix flag "--from")
    · simp [h1, h2, addTokens]
    · simp [h1, h2, addSources_elems]

theorem collectFold_elems (children : List Instruction) :
    ∀ acc : GoSlice String,
      (children.foldl collectChild acc).elems =
        addTokens acc.elems (children.flatMap sourceTokens) := by
  induction children with
  | nil => intro acc; simp [addTokens]
  | cons c children' ih =>
    intro acc
    rw [List.foldl_cons, ih, List.flatMap_cons, addTokens_append,
      collectChild_elems]

theorem mem_addTokens (x : String) (ts : List String) :
    ∀ acc : List String, x ∈ addTokens acc ts → x ∈ acc ∨ x ∈ ts := by
  induction ts with
  | nil => intro acc h; exact Or.inl h
  | cons s ts' ih =>
    intro acc h
    rw [show addTokens acc (s :: ts') =
        addTokens (if acc.contains s then acc else acc ++ [s]) ts'
      from rfl] at h
    rcases ih _ h with hin | hin
    · by_cases hc : acc.contains s
      · rw [if_pos hc] at hin; exact Or.inl hin
      · rw [if_neg hc] at hin
        rcases List.mem_append.mp hin with hl | hr
        · exact Or.inl hl
        · simp only [List.mem_singleton] at hr
          exact Or.inr (hr ▸ List.mem_cons_self s ts')
    · exact Or.inr (List.mem_cons_of_mem s hin)

/-- C2 (counterexample): the claim asserts the returned list never
contains a destination token, but a token that is the destination of
one `COPY` can also be the source of another and is then returned: in
the recipe `COPY a b; COPY b c`, the token `b` is the destination of
the first instruction yet appears in the result. -/
theorem c2_counterexample :
    (collectSourcesFromDockerfile
        [Instruction.mk "copy" [] ["a", "b"],
         Instruction.mk "copy" [] ["b", "c"]]).elems = ["a", "b"] ∧
      (Instruction.mk "copy" [] ["a", "b"]).args.getLast? = some "b" := by
  constructor
  · rfl
  · rfl

/-- C2 (amended): the extractor considers only `copy`/`add`
instructions, skips any with a `--from`-prefixed flag, collects every
argument token except the last, de-duplicates keeping first-seen
order; hence every returned token is a non-destination argument token
of some qualifying instruction (a destination or cross-stage source
can appear only when it is also such a token). -/
theorem c2_sources_characterization (children : List Instruction) :
    (collectSourcesFromDockerfile children).elems =
        dedupFirstSeen (children.flatMap sourceTokens) ∧
      ∀ s ∈ (collectSourcesFromDockerfile children).elems,
        ∃ child ∈ children, s ∈ sourceTokens child := by
  constructor
  · rw [collectSourcesFromDockerfile, collectFold_elems]
    rfl
  · intro s hs
    rw [collectSourcesFromDockerfile, collectFold_elems] at hs
    rcases mem_addTokens s _ _ hs with h | h
    · simp [goNilSlice] at h
    · rcases List.mem_flatMap.mp h with ⟨child, hchild, hmem⟩
      exact ⟨child, hchild, hmem⟩

/-- C2 (witness): on the recipe `COPY --from=builder x d; COPY a d2`,
the characterization applies and yields that `a` comes from the second
instruction. -/
theorem c2_witness :
    ∃ child ∈ [Instruction.mk "copy" ["--from=builder"] ["x", "d"],
        Instruction.mk "copy" [] ["a", "d2"]],
      "a" ∈ sourceTokens child :=
  (c2_sources_characterization
      [Instruction.mk "copy" ["--from=builder"] ["x", "d"],
       Instruction.mk "copy" [] ["a", "d2"]]).2
    "a" (by decide)

theorem collectChild_skip (acc : GoSlice String) (child : Instruction)
    (h : qualifiesChild child = false) : collectChild acc child = acc := by
  unfold qualifiesChild at h
  unfold collectChild
  by_cases h1 : child.value ≠ "add" ∧ child.value ≠ "copy"
  · simp [h1]
  · by_cases h2 : child.flags.any (fun flag => goHasPrefix flag "--from")
    · simp [h1, h2]
    · exfalso
      rw [Bool.and_eq_false_iff] at h
      rcases h with h | h
      · rw [Bool.or_eq_false_iff] at h
        exact h1 ⟨by simpa using h.1, by simpa using h.2⟩
      · simp only [Bool.not_eq_false'] at h
        exact h2 h

/-- C9 (counterexample): the claim asserts the result is a non-nil
empty slice, but the Go function returns the never-appended `var
sources []string`, i.e. the nil slice, when no instruction qualifies:
on the recipe `RUN echo` the result is nil. -/
theorem c9_counterexample :
    (collectSourcesFromDockerfile
        [Instruction.mk "run" [] ["echo"]]).isNil = true ∧
      (collectSourcesFromDockerfile
        [Instruction.mk "run" [] ["echo"]]).elems = [] := by
  constructor
  · rfl
  · rfl

/-- C9 (amended): for every recipe that parses successfully but
contains no qualifying `copy`/`add` instruction, the extractor returns
the empty nil slice (length zero) together with no error (the only
error path of the Go function is the external parser, which precedes
the fold). -/
theorem c9_nil_when_no_qualifying (children : List Instruction)
    (h : ∀ c ∈ children, qualifiesChild c = false) :
    collectSourcesFromDockerfile children = goNilSlice := by
  rw [collectSourcesFromDockerfile]
  induction children with
  | nil => rfl
  | cons c children' ih =>
    rw [List.foldl_cons,
      collectChild_skip goNilSlice c (h c (List.mem_cons_self c children'))]
    exact ih fun d hd => h d (List.mem_cons_of_mem c hd)

/-- C9 (witness): the amended claim evaluated on the recipe
`FROM ubuntu; RUN echo`. -/
theorem c9_witness :
    collectSourcesFromDockerfile
        [Instruction.mk "from" [] ["ubuntu"],
         Instruction.mk "run" [] ["echo"]] = goNilSlice :=
  c9_nil_when_no_qualifying
    [Instruction.mk "from" [] ["ubuntu"],
     Instruction.mk "run" [] ["echo"]]
    (by decide)

/-- C4 (counterexample): the claim's "if and only if" fails in the
backward direction: with a version-control strategy that succeeds and
a content-digest strategy that fails on the same path, the auto
strategy succeeds even though the content-digest strategy returns an
error, so "auto errs iff content-digest errs" is false. -/
theorem c4_counterexample :
    (autoFingerprint (fun _ => .ok ⟨modeCommit, "abc123"⟩)
        (fun _ => .error "I/O error") "app").1 =
      .ok ⟨modeCommit, "abc123"⟩ ∧
      (fun _ => (.error "I/O error" : Except String fingerprint)) "app" =
        .error "I/O error" :=
  ⟨rfl, rfl⟩

/-- C4 (amended): the auto strategy returns the version-control token
on success (no warning); on any version-control failure it emits a
warning to stderr and returns exactly the content-digest result; hence
it returns an error only if the content-digest strategy returns that
error (but it may succeed even when the content-digest strategy would
fail, namely when version control succeeds). -/
theorem c4_auto_fallback (gitHash contentHash : fingerprintFunc)
    (pathname : String) :
    (∀ fp, gitHash pathname = .ok fp →
        autoFingerprint gitHash contentHash pathname = (.ok fp, [])) ∧
      (∀ e, gitHash pathname = .error e →
        autoFingerprint gitHash contentHash pathname =
          (contentHash pathname, [autoWarning pathname e])) ∧
      ∀ e, (autoFingerprint gitHash contentHash pathname).1 = .error e →
        contentHash pathname = .error e := by
  refine ⟨fun fp hok => ?_, fun e herr => ?_, fun e herr => ?_⟩
  · rw [autoFingerprint, hok]
  · rw [autoFingerprint, herr]
  · rw [autoFingerprint] at herr
    cases hgit : gitHash pathname with
    | ok fp => rw [hgit] at herr; exact absurd herr (by simp)
    | error e2 => rw [hgit] at herr; exact herr

/-- C4 (witness): the amended claim evaluated with a failing git
strategy and a succeeding content strategy. -/
theorem c4_witness :
    autoFingerprint (fun _ => .error "not a git repository")
        (fun _ => .ok ⟨modeSHA1, "deadbeef"⟩) "src" =
      ((fun _ => (.ok ⟨modeSHA1, "deadbeef"⟩ : Except String fingerprint))
          "src",
        [autoWarning "src" "not a git repository"]) :=
  (c4_auto_fallback (fun _ => .error "not a git repository")
      (fun _ => .ok ⟨modeSHA1, "deadbeef"⟩) "src").2.1
    "not a git repository" rfl

theorem resolveBuildArgs_missing (osEnv : String → Option String) :
    ∀ (args : List String) (a : String), a ∈ args →
      a.data.contains '=' = false → osEnv a = none →
      ∃ b ∈ args, b.data.contains '=' = false ∧ osEnv b = none ∧
        resolveBuildArgs osEnv args =
          .error ("environment variable " ++ b ++ " is not set") := by
  intro args
  induction args with
  | nil => intro a ha; exact absurd ha (List.not_mem_nil a)
  | cons arg rest ih =>
    intro a ha hbare henv
    by_cases hc : arg.data.contains '=' = true
    · have hne : a ≠ arg := fun heq => by
        rw [heq, hc] at hbare; simp at hbare
      have hmem : a ∈ rest := by
        rcases List.mem_cons.mp ha with h | h
        · exact absurd h hne
        · exact h
      rcases ih a hmem hbare henv with ⟨b, hb, hbb, hbe, hres⟩
      refine ⟨b, List.mem_cons_of_mem arg hb, hbb, hbe, ?_⟩
      rw [resolveBuildArgs, if_pos hc, hres]
    · rw [Bool.not_eq_true] at hc
      cases harg : osEnv arg with
      | none =>
        refine ⟨arg, List.mem_cons_self arg rest, hc, harg, ?_⟩
        rw [resolveBuildArgs, if_neg (by rw [hc]; exact Bool.false_ne_true),
          harg]
      | some v =>
        have hne : a ≠ arg := fun heq => by
          rw [heq, harg] at henv; exact Option.some_ne_none v henv
        have hmem : a ∈ rest := by
          rcases List.mem_cons.mp ha with h | h
          · exact absurd h hne
          · exact h
        rcases ih a hmem hbare henv with ⟨b, hb, hbb, hbe, hres⟩
        refine ⟨b, List.mem_cons_of_mem arg hb, hbb, hbe, ?_⟩
        rw [resolveBuildArgs, if_neg (by rw [hc]; exact Bool.false_ne_true),
          harg, hres]

/-- C8: a build parameter given as a bare NAME whose environment
variable is absent makes the run fail hard with the
environment-variable error, for every filesystem environment and every
resolution strategy — i.e. before any source hashing can take place
(the result does not depend on the filesystem or the resolver, and no
empty string is substituted). -/
theorem c8_missing_env_failure (osEnv : String → Option String)
    (buildArgs : List String) (a : String) (hmem : a ∈ buildArgs)
    (hbare : a.data.contains '=' = false) (henv : osEnv a = none) :
    ∀ (env : FSEnv) (computeFingerprint : fingerprintFunc)
      (workingDir dockerfile : String),
      ∃ b ∈ buildArgs, b.data.contains '=' = false ∧ osEnv b = none ∧
        mainFingerprintRun osEnv env computeFingerprint workingDir
            dockerfile buildArgs =
          .error ("environment variable " ++ b ++ " is not set") := by
  intro env computeFingerprint workingDir dockerfile
  rcases resolveBuildArgs_missing osEnv buildArgs a hmem hbare henv with
    ⟨b, hb, hbb, hbe, hres⟩
  exact ⟨b, hb, hbb, hbe, by rw [mainFingerprintRun, hres]⟩

/-- C8 (witness): build parameter `VERSION` given without a value and
an empty environment, under an arbitrary concrete filesystem and
resolver. -/
theorem c8_witness :
    ∃ b ∈ ["VERSION"], b.data.contains '=' = false ∧
      (fun _ => (none : Option String)) b = none ∧
      mainFingerprintRun (fun _ => none)
          ⟨fun s => s, fun a b => a ++ "/" ++ b, fun _ p => p,
            fun _ => .statOk, fun _ => [], fun _ => .error "unused"⟩
          (fun _ => .ok ⟨modeSHA1, "aa"⟩) "ctx" "" ["VERSION"] =
        .error ("environment variable " ++ b ++ " is not set") :=
  c8_missing_env_failure (fun _ => none) ["VERSION"] "VERSION"
    (by decide) (by decide) rfl
    ⟨fun s => s, fun a b => a ++ "/" ++ b, fun _ p => p,
      fun _ => .statOk, fun _ => [], fun _ => .error "unused"⟩
    (fun _ => .ok ⟨modeSHA1, "aa"⟩) "ctx" ""

/-- C5: template validation: with an explicit placeholder the
contents must contain it verbatim (success keeps the contents
untouched and binds the placeholder to the explicit string); with no
explicit placeholder, a template without any image reference is
rejected, all pattern occurrences must be byte-identical (otherwise
the inconsistency error naming the file is returned), and on success
the first occurrence becomes the placeholder.  The function returns
the contents unchanged, performing no write. -/
theorem c5_template_validation
    (filename imageName placeholderString contents : String) :
    (placeholderString ≠ "" →
        (containsSub contents.data placeholderString.data = true →
          readTemplateFile filename imageName placeholderString contents =
            .ok ⟨filename, contents, placeholderString⟩) ∧
        (containsSub contents.data placeholderString.data = false →
          readTemplateFile filename imageName placeholderString contents =
            .error ("'" ++ filename ++
              "' does not contain occurrences of '" ++
              placeholderString ++ "'"))) ∧
      (placeholderString = "" →
        (findImageRefs imageName contents = [] →
          readTemplateFile filename imageName placeholderString contents =
            .error ("'" ++ filename ++
              "' does not contain the image name '" ++ imageName ++ "'")) ∧
        ∀ r rest, findImageRefs imageName contents = r :: rest →
          (rest.all (fun x => x = r) = true →
            readTemplateFile filename imageName placeholderString
                contents = .ok ⟨filename, contents, r⟩) ∧
          (rest.all (fun x => x = r) = false →
            readTemplateFile filename imageName placeholderString
                contents =
              .error ("'" ++ filename ++
                "' contains different tags for '" ++ imageName ++ "'"))) := by
  constructor
  · intro hne
    constructor
    · intro hc
      rw [readTemplateFile, if_neg hne, if_pos hc]
    · intro hc
      rw [readTemplateFile, if_neg hne,
        if_neg (by rw [hc]; exact Bool.false_ne_true)]
  · intro heq
    constructor
    · intro hrefs
      rw [readTemplateFile, if_pos heq, hrefs]
    · intro r rest hrefs
      constructor
      · intro hall
        rw [readTemplateFile, if_pos heq, hrefs]
        simp [hall]
      · intro hall
        rw [readTemplateFile, if_pos heq, hrefs]
        simp [hall]

/-- C5 (witness): a consistent template (two identical references
`myimage:v1`) validates with placeholder `myimage:v1`; an
inconsistent one (`myimage:v1` next to `myimage:v2`) is rejected with
the inconsistency error naming the file; and for an empty image name
the empty matches recorded by the regex engine participate: on
`"x:v1"` the references are `""` and `":v1"`, so validation fails
with the different-tags error, while on `"abc"` all four references
are empty and validation succeeds with the empty placeholder. -/
theorem c5_witness :
    readTemplateFile "d.yaml" "myimage" ""
        "x: myimage:v1\ny: myimage:v1\n" =
      .ok ⟨"d.yaml", "x: myimage:v1\ny: myimage:v1\n", "myimage:v1"⟩ ∧
      readTemplateFile "d.yaml" "myimage" ""
          "x: myimage:v1\ny: myimage:v2\n" =
        .error ("'" ++ "d.yaml" ++ "' contains different tags for '" ++
          "myimage" ++ "'") ∧
      readTemplateFile "d.yaml" "" "" "x:v1" =
        .error ("'" ++ "d.yaml" ++ "' contains different tags for '" ++
          "" ++ "'") ∧
      readTemplateFile "d.yaml" "" "" "abc" =
        .ok ⟨"d.yaml", "abc", ""⟩ :=
  ⟨(((c5_template_validation "d.yaml" "myimage" ""
        "x: myimage:v1\ny: myimage:v1\n").2 rfl).2 "myimage:v1"
      ["myimage:v1"] (by decide)).1 (by decide),
    (((c5_template_validation "d.yaml" "myimage" ""
        "x: myimage:v1\ny: myimage:v2\n").2 rfl).2 "myimage:v1"
      ["myimage:v2"] (by decide)).2 (by decide),
    (((c5_template_validation "d.yaml" "" "" "x:v1").2 rfl).2 ""
      [":v1"] (by decide)).2 (by decide),
    (((c5_template_validation "d.yaml" "" "" "abc").2 rfl).2 ""
      ["", "", ""] (by decide)).1 (by decide)⟩

theorem isPrefixOf_append_self (p x : List Char) :
    p.isPrefixOf (p ++ x) = true := by
  induction p with
  | nil => simp [List.isPrefixOf]
  | cons c cs ih => simp [List.isPrefixOf, ih]

theorem replaceCore_nil (old new : List Char) :
    replaceCore old new [] = [] := by
  simp [replaceCore]

theorem replaceCore_cons (old new : List Char) (c : Char)
    (rest : List Char) :
    replaceCore old new (c :: rest) =
      if old.isPrefixOf (c :: rest) then
        new ++ replaceCore old new (rest.drop (old.length - 1))
      else c :: replaceCore old new rest := by
  simp [replaceCore]

theorem replaceCore_no_occurrence (p f : List Char) (_hp : p ≠ []) :
    ∀ c : List Char,
      (∀ i, i < c.length → p.isPrefixOf (c.drop i) = false) →
      replaceCore p f c = c := by
  intro c
  induction c with
  | nil => intro _; exact replaceCore_nil p f
  | cons ch rest ih =>
    intro h
    have h0 : p.isPrefixOf (ch :: rest) = false := by
      have := h 0 (by simp)
      simpa using this
    have hrec : replaceCore p f rest = rest := ih fun i hi => by
      have := h (i + 1) (by simpa using Nat.succ_lt_succ hi)
      simpa using this
    rw [replaceCore_cons, if_neg (by rw [h0]; exact Bool.false_ne_true),
      hrec]

theorem replaceCore_at_occurrence (p f c₂ : List Char) (hp : p ≠ []) :
    ∀ c₁ : List Char,
      (∀ i, i < c₁.length →
        p.isPrefixOf ((c₁ ++ (p ++ c₂)).drop i) = false) →
      replaceCore p f (c₁ ++ (p ++ c₂)) =
        c₁ ++ (f ++ replaceCore p f c₂) := by
  intro c₁
  induction c₁ with
  | nil =>
    intro _
    cases p with
    | nil => exact absurd rfl hp
    | cons d ds =>
      rw [List.nil_append, List.cons_append, replaceCore_cons,
        if_pos (by rw [← List.cons_append]; exact isPrefixOf_append_self _ _)]
      simp only [List.length_cons, Nat.add_sub_cancel, List.nil_append]
      rw [List.drop_left]
  | cons a c₁' ih =>
    intro h
    have h0 : p.isPrefixOf (a :: (c₁' ++ (p ++ c₂))) = false := by
      have := h 0 (by simp)
      rw [List.drop_zero, List.cons_append] at this
      exact this
    rw [List.cons_append, replaceCore_cons,
      if_neg (by rw [h0]; exact Bool.false_ne_true)]
    rw [ih fun i hi => by
      have := h (i + 1) (by simpa using Nat.succ_lt_succ hi)
      rw [List.cons_append] at this
      simpa using this]
    rw [List.cons_append]

/-- C6: the template update loop skips the file (no write, bytes
unmodified) exactly when the placeholder already equals the final
tagged image name, so a second application with the final name as
placeholder changes nothing (idempotence); otherwise it rewrites the
file with `bytes.ReplaceAll`, which maps a placeholder-free text to
itself and rewrites every leftmost occurrence of the placeholder to
the final name. -/
theorem c6_apply_tag (c p f c₁ c₂ : List Char) :
    (p = f → applyTag c p f = (c, false)) ∧
      applyTag (applyTag c p f).1 f f = ((applyTag c p f).1, false) ∧
      (p ≠ f → applyTag c p f = (replaceAll c p f, true)) ∧
      (p ≠ [] → (∀ i, i < c.length → p.isPrefixOf (c.drop i) = false) →
        replaceAll c p f = c) ∧
      (p ≠ [] →
        (∀ i, i < c₁.length →
          p.isPrefixOf ((c₁ ++ (p ++ c₂)).drop i) = false) →
        replaceAll (c₁ ++ (p ++ c₂)) p f =
          c₁ ++ (f ++ replaceAll c₂ p f)) := by
  refine ⟨fun hpf => ?_, ?_, fun hpf => ?_, fun hp h => ?_, fun hp h => ?_⟩
  · rw [applyTag, if_pos hpf]
  · rw [applyTag, if_pos rfl]
  · rw [applyTag, if_neg hpf]
  · rw [replaceAll, if_neg hp, replaceCore_no_occurrence p f hp c h]
  · rw [replaceAll, if_neg hp, replaceAll, if_neg hp,
      replaceCore_at_occurrence p f c₂ hp c₁ h]

/-- C6 (witness): replacing `img:old` with `img:new` in a concrete
template rewrites the occurrence, and re-applying the tag when the
placeholder equals the final name changes nothing. -/
theorem c6_witness :
    applyTag "x img:new y".data "img:new".data "img:new".data =
        ("x img:new y".data, false) ∧
      replaceAll "x img:old y".data "img:old".data "img:new".data =
        "x img:new y".data := by
  constructor
  · exact (c6_apply_tag "x img:new y".data "img:new".data
      "img:new".data [] []).1 rfl
  · have h5 := (c6_apply_tag [] "img:old".data "img:new".data
      "x ".data " y".data).2.2.2.2 (by decide) (by decide)
    have h4 := (c6_apply_tag " y".data "img:old".data "img:new".data
      [] []).2.2.2.1 (by decide) (by decide)
    rw [show "x img:old y".data = "x ".data ++ ("img:old".data ++ " y".data)
        by decide, h5, h4]
    decide

/-- The byte stream contributed by a list of resolved sources: the
concatenation of their canonical lines. -/
def sourceLines (l : List (String × fingerprint)) : String :=
  joinAll (l.map fun nf => sourceLine nf.1 nf.2)

theorem hWrite_eq (h : Hasher) (s : String) : hWrite h s = h ++ s := rfl

theorem sourceLines_nil : sourceLines [] = "" := rfl

theorem sourceLines_cons (nf : String × fingerprint)
    (l : List (String × fingerprint)) :
    sourceLines (nf :: l) = sourceLine nf.1 nf.2 ++ sourceLines l := rfl

theorem sourceLines_append (l1 l2 : List (String × fingerprint)) :
    sourceLines (l1 ++ l2) = sourceLines l1 ++ sourceLines l2 := by
  induction l1 with
  | nil => rw [List.nil_append, sourceLines_nil, String.empty_append]
  | cons nf l1' ih =>
    rw [List.cons_append, sourceLines_cons, sourceLines_cons, ih,
      String.append_assoc]

theorem processMatches_eq (env : FSEnv) (workingDir : String)
    (computeFingerprint : fingerprintFunc) :
    ∀ (ms : List String) (h : Hasher),
      processMatches env workingDir computeFingerprint ms h =
        match resolveMatches env workingDir computeFingerprint ms with
        | .error e => .error e
        | .ok l => .ok (h ++ sourceLines l) := by
  intro ms
  induction ms with
  | nil =>
    intro h
    simp [processMatches, resolveMatches, sourceLines_nil,
      String.append_empty]
  | cons m rest ih =>
    intro h
    cases hcf : computeFingerprint m with
    | error e => simp [processMatches, resolveMatches, hcf]
    | ok fp =>
      cases hrm : resolveMatches env workingDir computeFingerprint rest with
      | error e => simp [processMatches, resolveMatches, hcf, hrm, ih]
      | ok l =>
        simp [processMatches, resolveMatches, hcf, hrm, ih,
          sourceLines_cons, hWrite_eq, String.append_assoc]

theorem processSources_eq (env : FSEnv) (workingDir : String)
    (computeFingerprint : fingerprintFunc) :
    ∀ (sources : List String) (h : Hasher),
      processSources env workingDir computeFingerprint sources h =
        match resolveSources env workingDir computeFingerprint sources with
        | .error e => .error e
        | .ok l => .ok (h ++ sourceLines l) := by
  intro sources
  induction sources with
  | nil =>
    intro h
    simp [processSources, resolveSources, sourceLines_nil,
      String.append_empty]
  | cons s rest ih =>
    intro h
    cases hst : env.stat (env.join workingDir (env.clean s)) with
    | statOk =>
      cases hcf : computeFingerprint (env.join workingDir (env.clean s)) with
      | error e => simp [processSources, resolveSources, hst, hcf]
      | ok fp =>
        cases hrs : resolveSources env workingDir computeFingerprint rest with
        | error e =>
          simp [processSources, resolveSources, hst, hcf, hrs, ih]
        | ok l =>
          simp [processSources, resolveSources, hst, hcf, hrs, ih,
            sourceLines_cons, hWrite_eq, String.append_assoc]
    | statErrOther msg => simp [processSources, resolveSources, hst]
    | statErrNotExist msg =>
      cases hg : env.glob (env.join workingDir (env.clean s)) with
      | nil => simp [processSources, resolveSources, hst, hg]
      | cons m ms =>
        cases hrm : resolveMatches env workingDir computeFingerprint
            (m :: ms) with
        | error e =>
          simp [processSources, resolveSources, hst, hg,
            processMatches_eq, hrm]
        | ok l1 =>
          cases hrs : resolveSources env workingDir computeFingerprint
              rest with
          | error e =>
            simp [processSources, resolveSources, hst, hg,
              processMatches_eq, hrm, hrs, ih]
          | ok l2 =>
            simp [processSources, resolveSources, hst, hg,
              processMatches_eq, hrm, hrs, ih, sourceLines_append,
              String.append_assoc]

theorem writeArgs_eq :
    ∀ (buildArgs : List String) (h : Hasher),
      writeArgs h buildArgs =
        h ++ joinAll (buildArgs.map fun arg => arg ++ "\n") := by
  intro buildArgs
  induction buildArgs with
  | nil =>
    intro h
    rw [writeArgs, List.foldl_nil, List.map_nil, joinAll,
      String.append_empty]
  | cons arg rest ih =>
    intro h
    rw [writeArgs, List.foldl_cons,
      show List.foldl (fun h1 arg => hWrite (hWrite h1 arg) "\n")
          (hWrite (hWrite h arg) "\n") rest =
        writeArgs (hWrite (hWrite h arg) "\n") rest from rfl,
      ih, List.map_cons, joinAll]
    simp only [hWrite_eq, String.append_assoc]

/-- C1: whenever the recipe parses and every extracted source
resolves, the aggregate fingerprint is the digest of the single byte
stream consisting of the recipe's own content-digest line, then one
canonical line `"<name>@<strategy>:<value>\n"` per resolved source in
discovery order, then one line `"<name>=<value>\n"` per build
parameter in command-line order. -/
theorem c1_fingerprint_stream (env : FSEnv)
    (workingDir dockerfile : String) (params : List (String × String))
    (computeFingerprint : fingerprintFunc)
    (children : List Instruction) (raw : String)
    (l : List (String × fingerprint))
    (hdf : env.readDockerfile
        (if dockerfile = "" then env.join (env.clean workingDir) "Dockerfile"
          else dockerfile) = .ok (children, raw))
    (hres : resolveSources env (env.clean workingDir) computeFingerprint
        (collectSourcesFromDockerfile children).elems = .ok l) :
    computeImageFingerprint env workingDir dockerfile
        (params.map fun p => p.1 ++ "=" ++ p.2) computeFingerprint =
      .ok (fingerprintFromSHA1
        (sourceLine "Dockerfile" (fingerprintFromSHA1 raw) ++
          sourceLines l ++
          joinAll (params.map fun p => p.1 ++ "=" ++ p.2 ++ "\n"))) := by
  rw [computeImageFingerprint, parseAndHashDockerfile, hdf]
  simp only []
  rw [processSources_eq, hres]
  simp only []
  rw [writeArgs_eq]
  have hmap : (params.map fun p => p.1 ++ "=" ++ p.2).map
      (fun arg => arg ++ "\n") =
      params.map fun p => p.1 ++ "=" ++ p.2 ++ "\n" := by
    rw [List.map_map]; rfl
  rw [hmap]
  have hraw : hWrite hInit raw = raw := String.empty_append raw
  have hline : hWrite hInit
      (sourceLine "Dockerfile" (fingerprintFromSHA1 (hWrite hInit raw))) =
      sourceLine "Dockerfile" (fingerprintFromSHA1 raw) := by
    rw [hraw]; exact String.empty_append _
  rw [hline, String.append_assoc]

/-- C1 (witness): a concrete environment with one recipe source
`app.py` resolving to a `sha1` token and one build parameter
`VERSION=1`. -/
theorem c1_witness :
    computeImageFingerprint
        ⟨fun s => s, fun a b => a ++ "/" ++ b, fun _ p => p,
          fun _ => .statOk, fun _ => [],
          fun _ => .ok ([⟨"copy", [], ["app.py", "/app/"]⟩],
            "FROM alpine\nCOPY app.py /app/\n")⟩
        "ctx" "" ([("VERSION", "1")].map fun p => p.1 ++ "=" ++ p.2)
        (fun _ => .ok ⟨modeSHA1, "h1"⟩) =
      .ok (fingerprintFromSHA1
        (sourceLine "Dockerfile"
            (fingerprintFromSHA1 "FROM alpine\nCOPY app.py /app/\n") ++
          sourceLines [("app.py", ⟨modeSHA1, "h1"⟩)] ++
          joinAll ([("VERSION", "1")].map
            fun p => p.1 ++ "=" ++ p.2 ++ "\n"))) :=
  c1_fingerprint_stream
    ⟨fun s => s, fun a b => a ++ "/" ++ b, fun _ p => p,
      fun _ => .statOk, fun _ => [],
      fun _ => .ok ([⟨"copy", [], ["app.py", "/app/"]⟩],
        "FROM alpine\nCOPY app.py /app/\n")⟩
    "ctx" "" [("VERSION", "1")] (fun _ => .ok ⟨modeSHA1, "h1"⟩)
    [⟨"copy", [], ["app.py", "/app/"]⟩] "FROM alpine\nCOPY app.py /app/\n"
    [("app.py", ⟨modeSHA1, "h1"⟩)] rfl rfl

/-- C3: error precedence of source resolution: when the joined
pathname's `Stat` fails with not-exist, glob expansion is attempted —
zero matches return the original not-found error, one or more matches
are resolved individually with the source name recomputed relative to
the working directory; a `Stat` failure other than not-found aborts
with that error; a resolution failure aborts; and any such abort makes
`computeImageFingerprint` return the error with no digest produced. -/
theorem c3_glob_error_precedence (env : FSEnv) (workingDir : String)
    (computeFingerprint : fingerprintFunc) (s : String)
    (rest : List String) (h : Hasher) (msg : String) :
    (env.stat (env.join workingDir (env.clean s)) = .statErrNotExist msg →
        env.glob (env.join workingDir (env.clean s)) = [] →
        processSources env workingDir computeFingerprint (s :: rest) h =
          .error msg) ∧
      (env.stat (env.join workingDir (env.clean s)) = .statErrNotExist msg →
        ∀ m ms, env.glob (env.join workingDir (env.clean s)) = m :: ms →
          processSources env workingDir computeFingerprint (s :: rest) h =
            match processMatches env workingDir computeFingerprint
                (m :: ms) h with
            | .error e => .error e
            | .ok h2 =>
              processSources env workingDir computeFingerprint rest h2) ∧
      (env.stat (env.join workingDir (env.clean s)) = .statErrOther msg →
        processSources env workingDir computeFingerprint (s :: rest) h =
          .error msg) ∧
      (∀ m ms e, computeFingerprint m = .error e →
        processMatches env workingDir computeFingerprint (m :: ms) h =
          .error e) ∧
      (∀ m ms fp, computeFingerprint m = .ok fp →
        processMatches env workingDir computeFingerprint (m :: ms) h =
          processMatches env workingDir computeFingerprint ms
            (hWrite h (sourceLine (env.rel workingDir m) fp))) ∧
      ∀ dockerfile buildArgs children raw e,
        env.readDockerfile
            (if dockerfile = "" then
              env.join (env.clean workingDir) "Dockerfile"
              else dockerfile) = .ok (children, raw) →
        processSources env (env.clean workingDir) computeFingerprint
            (collectSourcesFromDockerfile children).elems
            (hWrite hInit (sourceLine "Dockerfile"
              (fingerprintFromSHA1 (hWrite hInit raw)))) = .error e →
        computeImageFingerprint env workingDir dockerfile buildArgs
            computeFingerprint = .error e := by
  refine ⟨fun hst hg => ?_, fun hst m ms hg => ?_, fun hst => ?_,
    fun m ms e hcf => ?_, fun m ms fp hcf => ?_,
    fun dockerfile buildArgs children raw e hdf hproc => ?_⟩
  · simp [processSources, hst, hg]
  · simp [processSources, hst, hg]
  · simp [processSources, hst]
  · simp [processMatches, hcf]
  · simp [processMatches, hcf]
  · rw [computeImageFingerprint, parseAndHashDockerfile, hdf]
    simp only []
    rw [hproc]

/-- C3 (witness): a missing source with an empty glob expansion
surfaces the original not-found error, and a failing resolver aborts
glob-match processing with its error. -/
theorem c3_witness :
    processSources
        ⟨fun p => p, fun a b => a ++ "/" ++ b, fun _ p => p,
          fun _ => .statErrNotExist "no such file", fun _ => [],
          fun _ => .error "unused"⟩
        "ctx" (fun _ => .ok ⟨modeSHA1, "h1"⟩) ["missing.txt"] "" =
      .error "no such file" ∧
      processMatches
          ⟨fun p => p, fun a b => a ++ "/" ++ b, fun _ p => p,
            fun _ => .statErrNotExist "no such file", fun _ => [],
            fun _ => .error "unused"⟩
          "ctx" (fun _ => .error "read failure") ["ctx/a.txt"] "" =
        .error "read failure" :=
  ⟨(c3_glob_error_precedence
      ⟨fun p => p, fun a b => a ++ "/" ++ b, fun _ p => p,
        fun _ => .statErrNotExist "no such file", fun _ => [],
        fun _ => .error "unused"⟩
      "ctx" (fun _ => .ok ⟨modeSHA1, "h1"⟩) "missing.txt" [] ""
      "no such file").1 rfl rfl,
    (c3_glob_error_precedence
      ⟨fun p => p, fun a b => a ++ "/" ++ b, fun _ p => p,
        fun _ => .statErrNotExist "no such file", fun _ => [],
        fun _ => .error "unused"⟩
      "ctx" (fun _ => .error "read failure") "missing.txt" [] ""
      "no such file").2.2.2.1 "ctx/a.txt" [] "read failure" rfl⟩

mutual

/-- The ordered sequence of regular-file contents that the walk of a
subtree (reached under entry name `name`) streams into the hash:
nothing for a skipped hidden directory, the file's bytes for a file,
the concatenated entry sequences for a visited directory.  No file or
directory name occurs in the sequence. -/
def treeSeq : FSTree → String → List String
  | .file c, _ => [c]
  | .dir es, name => if isHiddenName name then [] else entriesSeq es

/-- The content sequence of a directory's entries, in walk order. -/
def entriesSeq : FSEntries → List String
  | .nil => []
  | .cons n t r => treeSeq t n ++ entriesSeq r

end

theorem joinAll_append (a b : List String) :
    joinAll (a ++ b) = joinAll a ++ joinAll b := by
  induction a with
  | nil => rw [List.nil_append, joinAll, String.empty_append]
  | cons s a' ih =>
    rw [List.cons_append, joinAll, joinAll, ih, String.append_assoc]

mutual

theorem walkTree_stream (t : FSTree) : ∀ (n : String) (h : Hasher),
    walkTree t n h = h ++ joinAll (treeSeq t n) :=
  match t with
  | .file c => fun n h => by
    rw [walkTree, treeSeq, joinAll, joinAll, String.append_empty, hWrite_eq]
  | .dir es => fun n h => by
    rw [walkTree, treeSeq]
    by_cases hn : isHiddenName n = true
    · rw [if_pos hn, if_pos hn, joinAll, String.append_empty]
    · rw [if_neg hn, if_neg hn, walkEntries_stream es]

theorem walkEntries_stream (es : FSEntries) : ∀ h : Hasher,
    walkEntries es h = h ++ joinAll (entriesSeq es) :=
  match es with
  | .nil => fun h => by
    rw [walkEntries, entriesSeq, joinAll, String.append_empty]
  | .cons n t r => fun h => by
    rw [walkEntries, walkTree_stream t, walkEntries_stream r, entriesSeq,
      joinAll_append, String.append_assoc]

end

/-- The content sequence streamed by `hashFiles` at the walk root
(the root check uses the full pathname, not an entry name). -/
def hashSeq (pathname : String) (t : FSTree) : List String :=
  match t with
  | .file c => [c]
  | .dir es => if rootHidden pathname then [] else entriesSeq es

theorem eNotHidden : isHiddenName "e" = false := by decide

theorem treeSeq_dir_not_hidden (es : FSEntries) (n : String)
    (hn : isHiddenName n = false) :
    treeSeq (.dir es) n = entriesSeq es := by
  rw [treeSeq, if_neg (by rw [hn]; exact Bool.false_ne_true)]

theorem hashFiles_eq_seq (pathname : String) (t : FSTree) :
    hashFiles pathname t =
      fingerprintFromSHA1 (joinAll (hashSeq pathname t)) := by
  cases t with
  | file c =>
    rw [hashFiles, hashSeq, joinAll, joinAll, String.append_empty,
      hWrite_eq]
    rfl
  | dir es =>
    rw [hashFiles, hashSeq]
    by_cases hr : rootHidden pathname = true
    · rw [if_pos hr, if_pos hr, joinAll]
      rfl
    · rw [if_neg hr, if_neg hr, walkEntries_stream es]
      rfl

/-- Two trees that differ only in the contents of hidden
subdirectories reached under entry name `n`: files must agree, two
directories under a hidden name are unconstrained (the walk skips
them), and entries of a visited directory are related pairwise with
equal names. -/
inductive HiddenEq : String → FSTree → FSTree → Prop where
  | file : ∀ {n c}, HiddenEq n (.file c) (.file c)
  | hiddenDir : ∀ {n es1 es2}, isHiddenName n = true →
      HiddenEq n (.dir es1) (.dir es2)
  | dirNil : ∀ {n}, isHiddenName n = false →
      HiddenEq n (.dir .nil) (.dir .nil)
  | dirCons : ∀ {n m t1 t2 r1 r2}, isHiddenName n = false →
      HiddenEq m t1 t2 → HiddenEq n (.dir r1) (.dir r2) →
      HiddenEq n (.dir (.cons m t1 r1)) (.dir (.cons m t2 r2))

theorem treeSeq_hiddenEq {n : String} {t1 t2 : FSTree}
    (hrel : HiddenEq n t1 t2) : treeSeq t1 n = treeSeq t2 n := by
  induction hrel with
  | file => rfl
  | hiddenDir hn => rw [treeSeq, treeSeq, if_pos hn, if_pos hn]
  | dirNil hn => rfl
  | dirCons hn _ _ ihT ihR =>
    rw [treeSeq, treeSeq, if_neg (by rw [hn]; exact Bool.false_ne_true),
      if_neg (by rw [hn]; exact Bool.false_ne_true), entriesSeq,
      entriesSeq, ihT]
    rw [treeSeq, treeSeq, if_neg (by rw [hn]; exact Bool.false_ne_true),
      if_neg (by rw [hn]; exact Bool.false_ne_true)] at ihR
    rw [ihR]

/-- C7: `hashFiles` walks the tree streaming only regular-file bytes
and skips hidden directories, so two trees that differ only in the
contents of hidden subdirectories produce the same digest. -/
theorem c7_hidden_dir_invariance (pathname n : String) (t1 t2 : FSTree)
    (hroot : rootHidden pathname = false) (hn : isHiddenName n = false)
    (hrel : HiddenEq n t1 t2) :
    hashFiles pathname t1 = hashFiles pathname t2 := by
  have hseq := treeSeq_hiddenEq hrel
  rw [hashFiles_eq_seq, hashFiles_eq_seq]
  cases hrel with
  | file => rfl
  | hiddenDir h => rw [h] at hn; exact absurd hn (by simp)
  | dirNil h => rfl
  | dirCons h hrelT hrelR =>
    rw [treeSeq, treeSeq, if_neg (by rw [hn]; exact Bool.false_ne_true),
      if_neg (by rw [hn]; exact Bool.false_ne_true)] at hseq
    rw [hashSeq, hashSeq, if_neg (by rw [hroot]; exact Bool.false_ne_true),
      if_neg (by rw [hroot]; exact Bool.false_ne_true), hseq]

/-- C7 (witness): a context directory containing the hidden
subdirectory `.git` produces the same digest whether its `config` file
holds `A` or `B`, while the visible file `code` is unchanged. -/
theorem c7_witness :
    hashFiles "ctx"
        (.dir (.cons ".git" (.dir (.cons "config" (.file "A") .nil))
          (.cons "src" (.file "code") .nil))) =
      hashFiles "ctx"
        (.dir (.cons ".git" (.dir (.cons "config" (.file "B") .nil))
          (.cons "src" (.file "code") .nil))) :=
  c7_hidden_dir_invariance "ctx" "x" _ _ (by decide) (by decide)
    (HiddenEq.dirCons (by decide) (HiddenEq.hiddenDir (by decide))
      (HiddenEq.dirCons (by decide) HiddenEq.file
        (HiddenEq.dirNil (by decide))))

/-- Two trees equal up to renaming entries in place: files keep their
contents but may be renamed freely; directories may be renamed as long
as hiddenness is unchanged; the entry order (walk position) is kept. -/
inductive RenameEq : FSTree → FSTree → Prop where
  | file : ∀ {c}, RenameEq (.file c) (.file c)
  | dirNil : RenameEq (.dir .nil) (.dir .nil)
  | consFile : ∀ {n1 n2 c r1 r2}, RenameEq (.dir r1) (.dir r2) →
      RenameEq (.dir (.cons n1 (.file c) r1))
        (.dir (.cons n2 (.file c) r2))
  | consDir : ∀ {n1 n2 d1 d2 r1 r2},
      isHiddenName n1 = isHiddenName n2 →
      RenameEq (.dir d1) (.dir d2) → RenameEq (.dir r1) (.dir r2) →
      RenameEq (.dir (.cons n1 (.dir d1) r1))
        (.dir (.cons n2 (.dir d2) r2))

theorem treeSeq_renameEq {t1 t2 : FSTree} (hrel : RenameEq t1 t2) :
    ∀ n1 n2 : String, isHiddenName n1 = isHiddenName n2 →
      treeSeq t1 n1 = treeSeq t2 n2 := by
  induction hrel with
  | file => intro n1 n2 _; rfl
  | dirNil => intro n1 n2 hn; rw [treeSeq, treeSeq, hn]
  | consFile hrelR ihR =>
    intro n1 n2 hn
    rw [treeSeq, treeSeq, hn]
    by_cases hh : isHiddenName n2 = true
    · rw [if_pos hh, if_pos hh]
    · rw [if_neg hh, if_neg hh, entriesSeq, entriesSeq]
      have hr := ihR "e" "e" rfl
      rw [treeSeq_dir_not_hidden _ _ eNotHidden,
        treeSeq_dir_not_hidden _ _ eNotHidden] at hr
      rw [hr, treeSeq, treeSeq]
  | consDir hnd hrelD hrelR ihD ihR =>
    intro n1 n2 hn
    rw [treeSeq, treeSeq, hn]
    by_cases hh : isHiddenName n2 = true
    · rw [if_pos hh, if_pos hh]
    · rw [if_neg hh, if_neg hh, entriesSeq, entriesSeq, ihD _ _ hnd]
      have hr := ihR "e" "e" rfl
      rw [treeSeq_dir_not_hidden _ _ eNotHidden,
        treeSeq_dir_not_hidden _ _ eNotHidden] at hr
      rw [hr]

/-- C10: the digest of `hashFiles` is a function only of the walked
content sequence: it equals the digest of the concatenated file
contents in walk order (no file or directory name is ever written into
the hash); trees with equal content sequences digest identically; in
particular renaming entries in place (hiddenness of directory names
preserved) leaves the digest unchanged. -/
theorem c10_content_only_digest (pathname : String) (t t1 t2 : FSTree) :
    hashFiles pathname t =
        fingerprintFromSHA1 (joinAll (hashSeq pathname t)) ∧
      (hashSeq pathname t1 = hashSeq pathname t2 →
        hashFiles pathname t1 = hashFiles pathname t2) ∧
      (RenameEq t1 t2 →
        hashFiles pathname t1 = hashFiles pathname t2) := by
  refine ⟨hashFiles_eq_seq pathname t, fun hseq => ?_, fun hrel => ?_⟩
  · rw [hashFiles_eq_seq, hashFiles_eq_seq, hseq]
  · have htseq := treeSeq_renameEq hrel "e" "e" rfl
    rw [hashFiles_eq_seq, hashFiles_eq_seq]
    cases hrel with
    | file => rfl
    | dirNil => rfl
    | consFile hrelR =>
      rw [treeSeq_dir_not_hidden _ _ eNotHidden,
        treeSeq_dir_not_hidden _ _ eNotHidden] at htseq
      rw [hashSeq, hashSeq]
      by_cases hroot : rootHidden pathname = true
      · rw [if_pos hroot, if_pos hroot]
      · rw [if_neg hroot, if_neg hroot, htseq]
    | consDir hnd hrelD hrelR =>
      rw [treeSeq_dir_not_hidden _ _ eNotHidden,
        treeSeq_dir_not_hidden _ _ eNotHidden] at htseq
      rw [hashSeq, hashSeq]
      by_cases hroot : rootHidden pathname = true
      · rw [if_pos hroot, if_pos hroot]
      · rw [if_neg hroot, if_neg hroot, htseq]

/-- C10 (witness): renaming `a.txt` to `b.txt` (same content, same
walk position) leaves the digest unchanged. -/
theorem c10_witness :
    hashFiles "ctx" (.dir (.cons "a.txt" (.file "X") .nil)) =
      hashFiles "ctx" (.dir (.cons "b.txt" (.file "X") .nil)) :=
  (c10_content_only_digest "ctx" (.file "")
      (.dir (.cons "a.txt" (.file "X") .nil))
      (.dir (.cons "b.txt" (.file "X") .nil))).2.2
    (RenameEq.consFile RenameEq.dirNil)

end DockerReuse
